import Mathlib

/-!
Verification of the nl2spec core (MOP-specification → IR converter and
structural few-shot selector) against its natural-language specification.

The Python sources are shallowly embedded: text is `List Char`, Python
floats are modelled by `ℚ` (all arithmetic used is exact sums/products),
Python dicts with string keys are association lists, Python sets are
`Finset`, and a Python function that can raise an uncaught exception
returns an `Option` (with `none` for the raised case).  Regular-expression
searches are embedded as explicit character scans that reproduce the
leftmost-match and greedy/lazy backtracking behaviour of the concrete
patterns appearing in the source.
-/

namespace Nl2Spec

/-! ### Character and string helpers (Python `\s`, `\w`, `str.strip`, ...) -/

/-- Python regex `\s` / `str.strip` whitespace: space, tab, newline,
carriage return, vertical tab, form feed. -/
def pySpace (c : Char) : Bool :=
  c = ' ' || c = '\t' || c = '\n' || c = '\r' || c = '\x0b' || c = '\x0c'

/-- Python regex `\w` on ASCII: letters, digits, underscore. -/
def isWordC (c : Char) : Bool := c.isAlphanum || c = '_'

/-- First character of `[A-Za-z_]\w*`. -/
def isIdentStartC (c : Char) : Bool := c.isAlpha || c = '_'

/-- Python `str.lower` (ASCII fragment). -/
def lowerL (cs : List Char) : List Char := cs.map Char.toLower

/-- Case-insensitive "starts with" (Python `re.IGNORECASE` literal match). -/
def ciStarts : List Char → List Char → Bool
  | [], _ => true
  | _ :: _, [] => false
  | p :: ps, c :: cs => (p.toLower == c.toLower) && ciStarts ps cs

/-- Python `needle in hay` substring test. -/
def containsSub (needle : List Char) : List Char → Bool
  | [] => needle.isEmpty
  | c :: rest => needle.isPrefixOf (c :: rest) || containsSub needle rest

/-- Index of the first occurrence of `needle` (leftmost regex match of a
literal pattern). -/
def findSubIdx (needle : List Char) : List Char → Option Nat
  | [] => if needle.isEmpty then some 0 else none
  | c :: rest =>
    if needle.isPrefixOf (c :: rest) then some 0
    else (findSubIdx needle rest).map (· + 1)

/-- Python `str.strip()`. -/
def pyStrip (cs : List Char) : List Char :=
  ((cs.dropWhile pySpace).reverse.dropWhile pySpace).reverse

/-- Python `str.rstrip()`. -/
def pyRstrip (cs : List Char) : List Char :=
  (cs.reverse.dropWhile pySpace).reverse

/-- Line-break characters recognised by Python `str.splitlines`
(`\r\n` is additionally treated as a single break). -/
def isLineBreakC (c : Char) : Bool :=
  c = '\n' || c = '\r' || c = '\x0b' || c = '\x0c' ||
  c = '\x1c' || c = '\x1d' || c = '\x1e' || c = '\x85' ||
  c = '\u2028' || c = '\u2029'

/-- Worker for `pySplitlines`; `cur` is the current line, reversed. -/
def pySplitlinesGo (cur : List Char) : List Char → List (List Char)
  | [] => if cur.isEmpty then [] else [cur.reverse]
  | '\r' :: '\n' :: rest => cur.reverse :: pySplitlinesGo [] rest
  | c :: rest =>
    if isLineBreakC c then cur.reverse :: pySplitlinesGo [] rest
    else pySplitlinesGo (c :: cur) rest

/-- Python `str.splitlines()` (no trailing empty line, `""` gives `[]`). -/
def pySplitlines (cs : List Char) : List (List Char) := pySplitlinesGo [] cs

/-- Worker for `collapseWs`: the flag records whether the previous
character belonged to a whitespace run (already emitted as one space). -/
def cwGo : Bool → List Char → List Char
  | _, [] => []
  | inRun, c :: rest =>
    if pySpace c then
      if inRun then cwGo true rest else ' ' :: cwGo true rest
    else c :: cwGo false rest

/-- Collapse each run of whitespace to a single space: Python
`re.sub(r"\s+", " ", s)`. -/
def collapseWs (cs : List Char) : List Char := cwGo false cs

/-- `normalize` from the converters: `re.sub(r"\s+", " ", s).strip()`. -/
def normalizeWs (cs : List Char) : List Char := pyStrip (collapseWs cs)

/-! ### `FewShotLoader._weighted_manhattan`
(src/core/handlers/fewshot_loader - Copia.py)

Feature vectors and weight tables are Python dicts mapping feature names
to numbers; we model them as association lists (`find?` realises
`dict.get`).  The Python code folds `weights.get(key, 1.0) *
abs(v1.get(key, 0) - v2.get(key, 0))` over the key set
`set(weights) | set(v1) | set(v2)`; since ℚ-addition is commutative the
set iteration is modelled by a `Finset.sum`. -/

/-- A feature vector / weight table (Python dict, string keys). -/
abbrev FeatVec := List (String × ℚ)

/-- Python `d.get(k, default)` on an association list. -/
def dget (v : FeatVec) (k : String) (d : ℚ) : ℚ :=
  match v.find? (fun p => p.1 == k) with
  | some p => p.2
  | none => d

/-- Python `set(d.keys())`. -/
def vecKeys (v : FeatVec) : Finset String := (v.map Prod.fst).toFinset

/-- `FewShotLoader._weighted_manhattan(v1, v2, weights)`. -/
def weighted_manhattan (v1 v2 w : FeatVec) : ℚ :=
  ∑ k in vecKeys w ∪ vecKeys v1 ∪ vecKeys v2,
    dget w k 1 * |dget v1 k 0 - dget v2 k 0|

theorem dget_of_not_mem {v : FeatVec} {k : String} (h : k ∉ vecKeys v) (d : ℚ) :
    dget v k d = d := by
  unfold dget
  cases hf : v.find? (fun p => p.1 == k) with
  | none => rfl
  | some p =>
    exfalso
    have hmem := List.mem_of_find?_eq_some hf
    have hpk : p.1 = k := by
      have := List.find?_some hf
      simpa using this
    apply h
    simp only [vecKeys, List.mem_toFinset, List.mem_map]
    exact ⟨p, hmem, hpk⟩

theorem dget_w_pos {w : FeatVec} (hw : ∀ p ∈ w, 0 < p.2) (k : String) :
    0 < dget w k 1 := by
  unfold dget
  cases hf : w.find? (fun p => p.1 == k) with
  | none => norm_num
  | some p => exact hw p (List.mem_of_find?_eq_some hf)

/-- Claim C2: `_weighted_manhattan` is the weighted sum, over the union of
the weight table's and both vectors' keys, of
`weight(key, default 1) * |v1.get(key, 0) - v2.get(key, 0)|`; for a weight
table with positive weights it is zero on equal vectors, symmetric, and
zero exactly when the two vectors agree (with default 0) on every key
present in either vector. -/
theorem claim_C2 (v1 v2 w : FeatVec) (hw : ∀ p ∈ w, 0 < p.2) :
    (∀ v : FeatVec, weighted_manhattan v v w = 0) ∧
    weighted_manhattan v1 v2 w = weighted_manhattan v2 v1 w ∧
    (weighted_manhattan v1 v2 w = 0 ↔
      ∀ k ∈ vecKeys v1 ∪ vecKeys v2, dget v1 k 0 = dget v2 k 0) := by
  refine ⟨?_, ?_, ?_⟩
  · intro v
    apply Finset.sum_eq_zero
    intro k _
    simp
  · unfold weighted_manhattan
    have hset : vecKeys w ∪ vecKeys v2 ∪ vecKeys v1 =
        vecKeys w ∪ vecKeys v1 ∪ vecKeys v2 := by
      rw [Finset.union_assoc, Finset.union_comm (vecKeys v2), ← Finset.union_assoc]
    rw [hset]
    apply Finset.sum_congr rfl
    intro k _
    rw [abs_sub_comm]
  · unfold weighted_manhattan
    have hnn : ∀ k ∈ vecKeys w ∪ vecKeys v1 ∪ vecKeys v2,
        0 ≤ dget w k 1 * |dget v1 k 0 - dget v2 k 0| := by
      intro k _
      exact mul_nonneg (le_of_lt (dget_w_pos hw k)) (abs_nonneg _)
    rw [Finset.sum_eq_zero_iff_of_nonneg hnn]
    constructor
    · intro h k hk
      have hk' : k ∈ vecKeys w ∪ vecKeys v1 ∪ vecKeys v2 := by
        rcases Finset.mem_union.mp hk with h1 | h2
        · exact Finset.mem_union_left _ (Finset.mem_union_right _ h1)
        · exact Finset.mem_union_right _ h2
      have := h k hk'
      rcases mul_eq_zero.mp this with hw0 | habs
      · exact absurd hw0 (ne_of_gt (dget_w_pos hw k))
      · have : dget v1 k 0 - dget v2 k 0 = 0 := abs_eq_zero.mp habs
        linarith
    · intro h k _
      by_cases hk : k ∈ vecKeys v1 ∪ vecKeys v2
      · have := h k hk
        rw [this]
        simp
      · have h1 : k ∉ vecKeys v1 := fun hc => hk (Finset.mem_union_left _ hc)
        have h2 : k ∉ vecKeys v2 := fun hc => hk (Finset.mem_union_right _ hc)
        rw [dget_of_not_mem h1, dget_of_not_mem h2]
        simp

/-- Witness for C2 at a concrete positive weight table. -/
theorem claim_C2_witness :
    (∀ p ∈ ([("a", (2 : ℚ))] : FeatVec), 0 < p.2) ∧
    ((∀ v : FeatVec, weighted_manhattan v v [("a", 2)] = 0) ∧
      weighted_manhattan [("x", 3)] [("y", 5)] [("a", 2)] =
        weighted_manhattan [("y", 5)] [("x", 3)] [("a", 2)] ∧
      (weighted_manhattan [("x", 3)] [("y", 5)] [("a", 2)] = 0 ↔
        ∀ k ∈ vecKeys [("x", (3 : ℚ))] ∪ vecKeys [("y", (5 : ℚ))],
          dget [("x", 3)] k 0 = dget [("y", 5)] k 0)) :=
  ⟨by decide, claim_C2 [("x", 3)] [("y", 5)] [("a", 2)] (by decide)⟩

/-! ### `FewShotLoader._select_structural`
(src/core/handlers/fewshot_loader - Copia.py, lines 105-137)

The Python method loads each candidate JSON file, skips candidates whose
`ir.type` differs from the query's, extracts the candidate's feature
vector, scores it with the per-formalism weighted Manhattan distance,
sorts by `(distance, path.name)` and returns the first `k`.  File loading
and the per-formalism vector extraction are abstracted into a `Candidate`
record carrying the file name, its `ir.type` and its extracted feature
vector; the weight table of `_distance_by_type` is a parameter. -/

/-- One candidate file of the few-shot pool: its file name, its
`ir.type` field and its extracted feature vector. -/
structure Candidate where
  name : String
  ir_type : String
  vec : FeatVec

/-- Python tuple comparison `(distance, name) <= (distance, name)` used as
the `list.sort key=lambda x: (x["distance"], x["path"].name)` order. -/
def selLe (a b : String × ℚ) : Bool :=
  decide (a.2 < b.2) || (decide (a.2 = b.2) && decide (a.1 ≤ b.1))

/-- `FewShotLoader._select_structural` with `return_scores=True`:
score the same-formalism candidates against the query vector, sort
ascending by `(distance, file name)`, return the first `k`. -/
def select_structural (cands : List Candidate) (k : Nat) (base : FeatVec)
    (ir_type : String) (w : FeatVec) : List (String × ℚ) :=
  let scored := (cands.filter (fun c => c.ir_type == ir_type)).map
    (fun c => (c.name, weighted_manhattan c.vec base w))
  (scored.mergeSort selLe).take k

theorem selLe_trans (a b c : String × ℚ) (h1 : selLe a b) (h2 : selLe b c) :
    selLe a c := by
  simp only [selLe, Bool.or_eq_true, Bool.and_eq_true, decide_eq_true_eq] at *
  rcases h1 with h1 | ⟨h1, h1'⟩ <;> rcases h2 with h2 | ⟨h2, h2'⟩
  · exact Or.inl (lt_trans h1 h2)
  · exact Or.inl (h2 ▸ h1)
  · exact Or.inl (h1 ▸ h2)
  · exact Or.inr ⟨h1.trans h2, le_trans h1' h2'⟩

theorem selLe_total (a b : String × ℚ) : selLe a b || selLe b a := by
  simp only [selLe, Bool.or_eq_true, Bool.and_eq_true, decide_eq_true_eq]
  rcases lt_trichotomy a.2 b.2 with h | h | h
  · exact Or.inl (Or.inl h)
  · rcases le_total a.1 b.1 with h' | h'
    · exact Or.inl (Or.inr ⟨h, h'⟩)
    · exact Or.inr (Or.inr ⟨h.symm, h'⟩)
  · exact Or.inr (Or.inl h)

/-- Claim C3: structural selection scores every candidate of the query's
formalism with the weighted distance to the query vector, returns the
first `k` of the list sorted ascending by `(distance, candidate name)`
(so ties are broken by the name order), and is deterministic: the same
inputs give the same ordered output. -/
theorem claim_C3 (cands : List Candidate) (k : Nat) (base : FeatVec)
    (ir_type : String) (w : FeatVec) :
    select_structural cands k base ir_type w =
      select_structural cands k base ir_type w ∧
    (select_structural cands k base ir_type w).Pairwise
      (fun a b => selLe a b = true) ∧
    (∀ p ∈ select_structural cands k base ir_type w,
      ∃ c ∈ cands, c.ir_type = ir_type ∧
        p = (c.name, weighted_manhattan c.vec base w)) ∧
    (select_structural cands k base ir_type w).length =
      min k (cands.filter (fun c => c.ir_type == ir_type)).length := by
  refine ⟨rfl, ?_, ?_, ?_⟩
  · have hs : (((cands.filter (fun c => c.ir_type == ir_type)).map
        (fun c => (c.name, weighted_manhattan c.vec base w))).mergeSort
        selLe).Pairwise (fun a b => selLe a b = true) :=
      List.sorted_mergeSort selLe_trans selLe_total _
    exact List.Pairwise.sublist (List.take_sublist _ _) hs
  · intro p hp
    have hp1 : p ∈ ((cands.filter (fun c => c.ir_type == ir_type)).map
        (fun c => (c.name, weighted_manhattan c.vec base w))).mergeSort selLe :=
      List.mem_of_mem_take hp
    rw [List.mem_mergeSort] at hp1
    rcases List.mem_map.mp hp1 with ⟨c, hc, hcp⟩
    rcases List.mem_filter.mp hc with ⟨hcm, hct⟩
    exact ⟨c, hcm, by simpa using hct, hcp.symm⟩
  · unfold select_structural
    rw [List.length_take, List.length_mergeSort, List.length_map]

/-! ### `FewShotLoader._extract_vector_fsm`: graph features
(src/core/handlers/fewshot_loader - Copia.py, lines 296-424)

The FSM transition list of the IR JSON is traversed once; `t.get("source")`
and `t.get("target")` are Python `dict.get` calls that yield `None` for a
missing key, so both endpoints are `Option String`.  `has_cycle` is set to
`1` exactly when some transition has `src == tgt`; `count_paths` is the
depth-capped recursive path counter defined inside the same function. -/

/-- A transition of the few-shot IR JSON: `(t.get("source"), t.get("target"))`. -/
abbrev FsmEdge := Option String × Option String

/-- `adjacency.get(s, [])` after the adjacency-building loop: targets of
the transitions whose source is `s`, in transition order. -/
def adjOf (ts : List FsmEdge) (s : Option String) : List (Option String) :=
  (ts.filter (fun t => t.1 == s)).map (fun t => t.2)

/-- The `has_cycle` feature of `_extract_vector_fsm`: the loop sets the
flag to 1 when a transition has `src == tgt`. -/
def fsm_has_cycle (ts : List FsmEdge) : Nat :=
  ts.foldl (fun acc t => if t.1 = t.2 then 1 else acc) 0

theorem foldl_flag (ts : List FsmEdge) (b : Nat) :
    ts.foldl (fun acc t => if t.1 = t.2 then 1 else acc) b =
      if ∃ t ∈ ts, t.1 = t.2 then 1 else b := by
  induction ts generalizing b with
  | nil => simp
  | cons t rest ih =>
    rw [List.foldl_cons, ih]
    by_cases ht : t.1 = t.2
    · have hex : ∃ u ∈ t :: rest, u.1 = u.2 := ⟨t, List.mem_cons_self t rest, ht⟩
      rw [if_pos ht, if_pos hex]
      by_cases hr : ∃ u ∈ rest, u.1 = u.2
      · rw [if_pos hr]
      · rw [if_neg hr]
    · rw [if_neg ht]
      by_cases hr : ∃ u ∈ rest, u.1 = u.2
      · have hex : ∃ u ∈ t :: rest, u.1 = u.2 := by
          rcases hr with ⟨u, hu, hq⟩
          exact ⟨u, List.mem_cons_of_mem _ hu, hq⟩
        rw [if_pos hr, if_pos hex]
      · rw [if_neg hr, if_neg]
        rintro ⟨u, hu, hq⟩
        rcases List.mem_cons.mp hu with h | h
        · exact ht (h ▸ hq)
        · exact hr ⟨u, h, hq⟩

/-- The one-step edge relation of the transition graph (only transitions
with both endpoints present denote graph edges). -/
def FsmStep (ts : List FsmEdge) (a b : String) : Prop :=
  (some a, some b) ∈ ts

/-- Transitions of the counterexample to C7: a two-transition cycle
`a → b → a` with no self-loop. -/
def cycDemo : List FsmEdge := [(some "a", some "b"), (some "b", some "a")]

/-- Claim C7 counterexample: the graph `a → b → a` contains a cycle (a
path from `a` back to the already-seen `a`), yet the `has_cycle` feature
is 0, because the extractor only tests `src == tgt`. -/
theorem claim_C7_counterexample :
    fsm_has_cycle cycDemo = 0 ∧
      ∃ s, Relation.TransGen (FsmStep cycDemo) s s := by
  constructor
  · rfl
  · have h1 : FsmStep cycDemo "a" "b" := by simp [FsmStep, cycDemo]
    have h2 : FsmStep cycDemo "b" "a" := by simp [FsmStep, cycDemo]
    exact ⟨"a", Relation.TransGen.head h1 (Relation.TransGen.single h2)⟩

/-- Claim C7 (amended): `has_cycle` equals 1 exactly when some transition
has equal `source` and `target` (a self-loop; missing keys compare equal
as Python `None`), it is 0 otherwise, and a genuine self-loop on a named
state does give a cycle of the transition graph.  Cycles through two or
more distinct states are not detected. -/
theorem claim_C7_amended (ts : List FsmEdge) :
    (fsm_has_cycle ts = 1 ↔ ∃ t ∈ ts, t.1 = t.2) ∧
    (fsm_has_cycle ts = 0 ↔ ¬ ∃ t ∈ ts, t.1 = t.2) ∧
    (∀ s : String, (some s, some s) ∈ ts →
      Relation.TransGen (FsmStep ts) s s) := by
  refine ⟨?_, ?_, ?_⟩
  · rw [fsm_has_cycle, foldl_flag]
    by_cases h : ∃ t ∈ ts, t.1 = t.2
    · simp [h]
    · simp [h]
  · rw [fsm_has_cycle, foldl_flag]
    by_cases h : ∃ t ∈ ts, t.1 = t.2
    · simp [h]
    · simp [h]
  · intro s hs
    exact Relation.TransGen.single hs

/-- Witness for C7 (amended) at the self-loop graph `[(x, x)]`. -/
theorem claim_C7_amended_witness :
    fsm_has_cycle [((some "x", some "x") : FsmEdge)] = 1 ∧
      Relation.TransGen (FsmStep [((some "x", some "x") : FsmEdge)]) "x" "x" :=
  ⟨((claim_C7_amended _).1).mpr ⟨_, List.mem_singleton_self _, rfl⟩,
    (claim_C7_amended [((some "x", some "x") : FsmEdge)]).2.2 "x"
      (List.mem_singleton_self _)⟩

/-! ### `count_paths` (same function, lines 374-390)

`count_paths(start, target, visited, limit=20)` recursively counts paths
from `start` to `target`: a call returns 1 at the target, 0 once the
visited set exceeds `limit`, and otherwise sums the counts over the
unvisited neighbours, each recursive call inserting the neighbour into
the visited set.  The well-founded measure is `limit + 1 - |visited|`. -/

/-- The recursive path counter of `_extract_vector_fsm`. -/
def count_paths (ts : List FsmEdge) (start target : Option String)
    (visited : Finset (Option String)) (limit : Nat) : Nat :=
  if start = target then 1
  else if visited.card > limit then 0
  else
    (((adjOf ts start).filter (fun n => n ∉ visited)).attach.map
      (fun n => count_paths ts n.1 target (insert n.1 visited) limit)).sum
  termination_by (limit + 1) - visited.card
  decreasing_by
    rename_i _hne hcap
    have hn : n.1 ∉ visited := by
      have := n.2
      simp only [List.mem_filter, decide_eq_true_eq] at this
      exact this.2
    rw [Finset.card_insert_of_not_mem hn]
    exact Nat.sub_lt_sub_left
      (Nat.lt_succ_of_le (Nat.le_of_not_lt hcap)) (Nat.lt_succ_self _)

/-- Fuel-indexed variant of `count_paths`: `0` fuel yields `0`. -/
def count_paths_fuel (fuel : Nat) (ts : List FsmEdge)
    (start target : Option String) (visited : Finset (Option String))
    (limit : Nat) : Nat :=
  match fuel with
  | 0 => 0
  | fuel + 1 =>
    if start = target then 1
    else if visited.card > limit then 0
    else
      (((adjOf ts start).filter (fun n => n ∉ visited)).map
        (fun n => count_paths_fuel fuel ts n target (insert n visited) limit)).sum

/-- Claim C9: the recursive path count terminates on every finite
transition graph, cyclic ones included: its recursion depth is bounded by
the visited-set cap, so the fuel-indexed variant agrees with the total
function whenever the fuel is at least `limit + 2 - |visited|` (at the
top-level call, `22` for the default cap of 20 and a singleton visited
set). -/
theorem claim_C9 (fuel : Nat) (ts : List FsmEdge)
    (start target : Option String) (visited : Finset (Option String))
    (limit : Nat) (hpos : 0 < fuel)
    (hfuel : limit + 2 - visited.card ≤ fuel) :
    count_paths_fuel fuel ts start target visited limit =
      count_paths ts start target visited limit := by
  induction fuel generalizing start visited with
  | zero => omega
  | succ f ih =>
    rw [count_paths]
    simp only [count_paths_fuel]
    by_cases h1 : start = target
    · simp [h1]
    · rw [if_neg h1, if_neg h1]
      by_cases h2 : visited.card > limit
      · rw [if_pos h2, if_pos h2]
      · rw [if_neg h2, if_neg h2]
        have hcard : visited.card ≤ limit := Nat.le_of_not_lt h2
        congr 1
        rw [← List.attach_map_coe
          ((adjOf ts start).filter (fun n => n ∉ visited))
          (fun n => count_paths_fuel f ts n target (insert n visited) limit)]
        apply List.map_congr_left
        intro n _
        apply ih
        · omega
        · have hn : n.1 ∉ visited := by
            have := n.2
            simp only [List.mem_filter, decide_eq_true_eq] at this
            exact this.2
          rw [Finset.card_insert_of_not_mem hn]
          omega

/-- Witness for C9 at the cyclic demo graph with the source's default cap
`limit = 20`, top-level visited set `{start}` and fuel 22. -/
theorem claim_C9_witness :
    0 < 22 ∧
    20 + 2 - ({some "a"} : Finset (Option String)).card ≤ 22 ∧
    count_paths_fuel 22 cycDemo (some "a") (some "z")
        {some "a"} 20 =
      count_paths cycDemo (some "a") (some "z") {some "a"} 20 :=
  ⟨by decide, by decide,
    claim_C9 22 cycDemo (some "a") (some "z") {some "a"} 20
      (by decide) (by decide)⟩

/-! ### Formalism detection

`detect_formalism` (src/core/convert/mop_to_ir.py, lines 84-108) searches
the multiline case-insensitive header patterns `^\s*(ptltl|ltl)\s*:`,
`^\s*fsm\s*:`, `^\s*ere\s*:` and `^\s*event\s+` in strict order.  A match
of the first three must start at a line start (position 0 or after a
newline), skip whitespace (which, `\s` matching newlines, may span
lines), read the keyword case-insensitively, skip whitespace, and hit a
colon; the keyword initials differ so the regex alternation is
deterministic, and the greedy `\s*` runs are forced to be maximal because
the following literal is never whitespace.

`_detect_category` (src/core/comparator/mop_to_ir.py, lines 16-24)
instead lowercases the text and tests plain substrings, FSM first. -/

/-- Match `\s*KW\s*:` at the given position, `KW` drawn case-insensitively
from `kws`. -/
def matchColonKW (kws : List (List Char)) (cs : List Char) : Bool :=
  let r := cs.dropWhile pySpace
  kws.any (fun kw =>
    ciStarts kw r &&
      ((r.drop kw.length).dropWhile pySpace).head? == some ':')

/-- Match `\s*event\s` (the header `^\s*event\s+`) at the given position. -/
def matchEventKW (cs : List Char) : Bool :=
  let r := cs.dropWhile pySpace
  ciStarts ("event".toList) r &&
    (match (r.drop 5).head? with
     | some c => pySpace c
     | none => false)

/-- Try a matcher at every line-start position (`(?m)^`): position 0 and
every position following a newline. -/
def scanLineStarts (m : List Char → Bool) : Bool → List Char → Bool
  | _, [] => false
  | atStart, c :: rest =>
    (atStart && m (c :: rest)) || scanLineStarts m (c == '\n') rest

/-- `_LTL_HEADER_RE.search`: `(?im)^\s*(ptltl|ltl)\s*:`. -/
def hasLtlHeader (cs : List Char) : Bool :=
  scanLineStarts (matchColonKW ["ptltl".toList, "ltl".toList]) true cs

/-- `_FSM_HEADER_RE.search`: `(?im)^\s*fsm\s*:`. -/
def hasFsmHeader (cs : List Char) : Bool :=
  scanLineStarts (matchColonKW ["fsm".toList]) true cs

/-- `_ERE_HEADER_RE.search`: `(?im)^\s*ere\s*:`. -/
def hasEreHeader (cs : List Char) : Bool :=
  scanLineStarts (matchColonKW ["ere".toList]) true cs

/-- The EVENT fallback test `re.search(r"(?im)^\s*event\s+", text)`. -/
def hasEventHeader (cs : List Char) : Bool :=
  scanLineStarts matchEventKW true cs

/-- `detect_formalism` (src/core/convert/mop_to_ir.py). -/
def detect_formalism (cs : List Char) : String :=
  if hasLtlHeader cs then "ltl"
  else if hasFsmHeader cs then "fsm"
  else if hasEreHeader cs then "ere"
  else if hasEventHeader cs then "event"
  else "unknown"

/-- `_detect_category` (src/core/comparator/mop_to_ir.py): lowercase the
text, then test the substrings `"fsm :"`, `"ere :"`, `"ltl :"`/`"ptltl :"`
in that order, falling back to EVENT. -/
def detect_category (cs : List Char) : String :=
  let t := lowerL cs
  if containsSub ("fsm :".toList) t then "FSM"
  else if containsSub ("ere :".toList) t then "ERE"
  else if containsSub ("ltl :".toList) t || containsSub ("ptltl :".toList) t
    then "LTL"
  else "EVENT"

/-- A text carrying both an `ltl :` and an `fsm :` header line. -/
def bothHeadersDemo : List Char := "ltl : p\nfsm : x\n".toList

/-- Claim C1 counterexample: this text has both an `fsm :` and an `ltl :`
header line, yet the comparator's category detector classifies it as FSM,
not LTL — it tests the `fsm :` substring first (its convert-side
counterpart `detect_formalism` does answer ltl). -/
theorem claim_C1_counterexample :
    hasFsmHeader bothHeadersDemo = true ∧
    hasLtlHeader bothHeadersDemo = true ∧
    detect_category bothHeadersDemo = "FSM" ∧
    detect_formalism bothHeadersDemo = "ltl" := by
  refine ⟨by decide, by decide, ?_, ?_⟩ <;> decide

/-- Claim C1 (amended): `detect_formalism` (convert path) is total onto
`{ltl, fsm, ere, event, unknown}` and applies the header tests in strict
priority order LTL/PTLTL, FSM, ERE, EVENT fallback, so a text with both
`fsm :` and `ltl :` header lines is `ltl` there; but the comparator's
`_detect_category` tests the lowercased substrings `"fsm :"`, then
`"ere :"`, then `"ltl :"`/`"ptltl :"`, with EVENT as its fallback (it
never reports unknown), so such a text is classified FSM there. -/
theorem claim_C1_amended (cs : List Char) :
    (detect_formalism cs = "ltl" ∨ detect_formalism cs = "fsm" ∨
      detect_formalism cs = "ere" ∨ detect_formalism cs = "event" ∨
      detect_formalism cs = "unknown") ∧
    (hasLtlHeader cs = true → detect_formalism cs = "ltl") ∧
    (hasLtlHeader cs = false → hasFsmHeader cs = true →
      detect_formalism cs = "fsm") ∧
    (hasLtlHeader cs = false → hasFsmHeader cs = false →
      hasEreHeader cs = true → detect_formalism cs = "ere") ∧
    (hasLtlHeader cs = false → hasFsmHeader cs = false →
      hasEreHeader cs = false → hasEventHeader cs = true →
      detect_formalism cs = "event") ∧
    (hasLtlHeader cs = false → hasFsmHeader cs = false →
      hasEreHeader cs = false → hasEventHeader cs = false →
      detect_formalism cs = "unknown") ∧
    (detect_category cs = "FSM" ∨ detect_category cs = "ERE" ∨
      detect_category cs = "LTL" ∨ detect_category cs = "EVENT") ∧
    (containsSub ("fsm :".toList) (lowerL cs) = true →
      detect_category cs = "FSM") ∧
    (containsSub ("fsm :".toList) (lowerL cs) = false →
      containsSub ("ere :".toList) (lowerL cs) = true →
      detect_category cs = "ERE") ∧
    (containsSub ("fsm :".toList) (lowerL cs) = false →
      containsSub ("ere :".toList) (lowerL cs) = false →
      (containsSub ("ltl :".toList) (lowerL cs) = true ∨
        containsSub ("ptltl :".toList) (lowerL cs) = true) →
      detect_category cs = "LTL") ∧
    (containsSub ("fsm :".toList) (lowerL cs) = false →
      containsSub ("ere :".toList) (lowerL cs) = false →
      containsSub ("ltl :".toList) (lowerL cs) = false →
      containsSub ("ptltl :".toList) (lowerL cs) = false →
      detect_category cs = "EVENT") := by
  refine ⟨?_, ?_, ?_, ?_, ?_, ?_, ?_, ?_, ?_, ?_, ?_⟩
  · unfold detect_formalism
    split
    · exact Or.inl rfl
    · split
      · exact Or.inr (Or.inl rfl)
      · split
        · exact Or.inr (Or.inr (Or.inl rfl))
        · split
          · exact Or.inr (Or.inr (Or.inr (Or.inl rfl)))
          · exact Or.inr (Or.inr (Or.inr (Or.inr rfl)))
  · intro h
    simp [detect_formalism, h]
  · intro h1 h2
    simp [detect_formalism, h1, h2]
  · intro h1 h2 h3
    simp [detect_formalism, h1, h2, h3]
  · intro h1 h2 h3 h4
    simp [detect_formalism, h1, h2, h3, h4]
  · intro h1 h2 h3 h4
    simp [detect_formalism, h1, h2, h3, h4]
  · simp only [detect_category]
    split
    · exact Or.inl rfl
    · split
      · exact Or.inr (Or.inl rfl)
      · split
        · exact Or.inr (Or.inr (Or.inl rfl))
        · exact Or.inr (Or.inr (Or.inr rfl))
  · intro h
    simp only [detect_category]
    rw [h]
    simp
  · intro h1 h2
    simp only [detect_category]
    rw [h1, h2]
    simp
  · intro h1 h2 h3
    simp only [detect_category]
    rw [h1, h2]
    rcases h3 with h3 | h3 <;> rw [h3] <;> simp
  · intro h1 h2 h3 h4
    simp only [detect_category]
    rw [h1, h2, h3, h4]
    simp

/-- Witness for C1 (amended): the priority implications discharged on the
two-header demo text. -/
theorem claim_C1_amended_witness :
    hasLtlHeader bothHeadersDemo = true ∧
    containsSub ("fsm :".toList) (lowerL bothHeadersDemo) = true ∧
    detect_formalism bothHeadersDemo = "ltl" ∧
    detect_category bothHeadersDemo = "FSM" :=
  ⟨by decide, by decide,
    (claim_C1_amended bothHeadersDemo).2.1 (by decide),
    (claim_C1_amended bothHeadersDemo).2.2.2.2.2.2.2.1 (by decide)⟩

/-! ### Balanced-parenthesis extraction

`extract_balanced` (src/core/convert/ere.py, lines 203-223) first checks
that the character at `open_pos` is `(`, then scans forward keeping a
nesting depth; on the `)` that brings the depth to 0 it returns
`(s[open_pos+1:i], i + 1)` — the content and the position *just past* the
close.  `_extract_balanced_parens` (src/core/convert/fsm.py, lines
89-102) omits the initial character check and returns `(s[open_pos+1:i],
i)` — the position *of* the close.  Both return `(None, None)` when the
scan ends without the depth reaching 0.  (Python would raise IndexError
for an out-of-range `open_pos` in the ere variant's initial check; the
embedding only models in-range calls, mapping the empty remainder to the
no-match sentinel.) -/

/-- Contribution of one character to the parenthesis nesting depth. -/
def parenDelta (c : Char) : Int :=
  if c = '(' then 1 else if c = ')' then -1 else 0

/-- Nesting depth after a string: opens minus closes. -/
def parenDepth (cs : List Char) : Int := (cs.map parenDelta).sum

/-- `inner` contains only balanced parentheses: no prefix closes more
than it opens, and opens and closes agree overall. -/
def BalancedParens (cs : List Char) : Prop :=
  (∀ p ∈ cs.inits, 0 ≤ parenDepth p) ∧ parenDepth cs = 0

instance (cs : List Char) : Decidable (BalancedParens cs) := by
  unfold BalancedParens
  infer_instance

/-- The scanning loop shared by both extractors, after the character at
`open_pos` has been consumed: `i` is the index of the head of the
remaining text, `depth` the current nesting depth, `acc` the reversed
content scanned so far.  `past` selects the returned position: just past
the close (ere.py) or the close itself (fsm.py). -/
def ebGo (past : Bool) : List Char → Nat → Int → List Char →
    Option (List Char) × Option Nat
  | [], _, _, _ => (none, none)
  | c :: rest, i, depth, acc =>
    if c = '(' then ebGo past rest (i + 1) (depth + 1) (c :: acc)
    else if c = ')' then
      if depth - 1 = 0 then
        (some acc.reverse, some (if past then i + 1 else i))
      else ebGo past rest (i + 1) (depth - 1) (c :: acc)
    else ebGo past rest (i + 1) depth (c :: acc)

/-- `extract_balanced` of src/core/convert/ere.py. -/
def extract_balanced (s : List Char) (openPos : Nat) :
    Option (List Char) × Option Nat :=
  match s.drop openPos with
  | [] => (none, none)
  | c :: rest =>
    if c = '(' then ebGo true rest (openPos + 1) 1 [] else (none, none)

/-- `_extract_balanced_parens` of src/core/convert/fsm.py: no initial
character check, and the close position itself is returned. -/
def extract_balanced_parens (s : List Char) (openPos : Nat) :
    Option (List Char) × Option Nat :=
  match s.drop openPos with
  | [] => (none, none)
  | c :: rest => ebGo false rest (openPos + 1) (parenDelta c) []

theorem parenDepth_cons (c : Char) (cs : List Char) :
    parenDepth (c :: cs) = parenDelta c + parenDepth cs := by
  simp [parenDepth]

theorem mem_inits_cons {p cs : List Char} {c : Char} (hp : p ∈ cs.inits) :
    (c :: p) ∈ (c :: cs).inits := by
  rw [List.mem_inits] at hp ⊢
  rcases hp with ⟨t, ht⟩
  exact ⟨t, by rw [List.cons_append, ht]⟩

theorem ebGo_round (past : Bool) (inner suffix : List Char) :
    ∀ (i : Nat) (d : Int) (acc : List Char),
    (∀ p ∈ inner.inits, 0 < d + parenDepth p) →
    (d + parenDepth inner = 1) →
    ebGo past (inner ++ ')' :: suffix) i d acc =
      (some (acc.reverse ++ inner),
        some ((if past then i + 1 else i) + inner.length)) := by
  induction inner with
  | nil =>
    intro i d acc _ h2
    have hd : d = 1 := by
      simpa [parenDepth] using h2
    subst hd
    simp [ebGo]
  | cons c cs ih =>
    intro i d acc h1 h2
    by_cases hc : c = '('
    · subst hc
      rw [List.cons_append, ebGo, if_pos rfl]
      have h1' : ∀ p ∈ cs.inits, 0 < (d + 1) + parenDepth p := by
        intro p hp
        have := h1 _ (mem_inits_cons hp)
        rw [parenDepth_cons] at this
        simp [parenDelta] at this
        linarith
      have h2' : (d + 1) + parenDepth cs = 1 := by
        rw [parenDepth_cons] at h2
        simp [parenDelta] at h2
        linarith
      rw [ih (i + 1) (d + 1) ('(' :: acc) h1' h2']
      simp only [Prod.mk.injEq, Option.some.injEq]
      constructor
      · simp
      · cases past <;> simp <;> omega
    · by_cases hc' : c = ')'
      · subst hc'
        have hd1 : 0 < d - 1 := by
          have := h1 [')'] (mem_inits_cons (by simp))
          rw [parenDepth_cons] at this
          simp [parenDelta, parenDepth] at this
          linarith
        rw [List.cons_append, ebGo, if_neg (by decide), if_pos rfl,
          if_neg (by omega)]
        have h1' : ∀ p ∈ cs.inits, 0 < (d - 1) + parenDepth p := by
          intro p hp
          have := h1 _ (mem_inits_cons hp)
          rw [parenDepth_cons] at this
          simp [parenDelta] at this
          linarith
        have h2' : (d - 1) + parenDepth cs = 1 := by
          rw [parenDepth_cons] at h2
          simp [parenDelta] at h2
          linarith
        rw [ih (i + 1) (d - 1) (')' :: acc) h1' h2']
        simp only [Prod.mk.injEq, Option.some.injEq]
        constructor
        · simp
        · cases past <;> simp <;> omega
      · rw [List.cons_append, ebGo, if_neg hc, if_neg hc']
        have hdelta : parenDelta c = 0 := by
          simp [parenDelta, hc, hc']
        have h1' : ∀ p ∈ cs.inits, 0 < d + parenDepth p := by
          intro p hp
          have := h1 _ (mem_inits_cons hp)
          rw [parenDepth_cons, hdelta] at this
          linarith
        have h2' : d + parenDepth cs = 1 := by
          rw [parenDepth_cons, hdelta] at h2
          linarith
        rw [ih (i + 1) d (c :: acc) h1' h2']
        simp only [Prod.mk.injEq, Option.some.injEq]
        constructor
        · simp
        · cases past <;> simp <;> omega

theorem ebGo_no_close (past : Bool) :
    ∀ (cs : List Char) (i : Nat) (d : Int) (acc : List Char),
    ')' ∉ cs → ebGo past cs i d acc = (none, none) := by
  intro cs
  induction cs with
  | nil => intro i d acc _; rfl
  | cons c rest ih =>
    intro i d acc h
    have hc : c ≠ ')' := fun hc => h (hc ▸ List.mem_cons_self c rest)
    have hr : ')' ∉ rest := fun hr => h (List.mem_cons_of_mem c hr)
    by_cases hop : c = '('
    · rw [ebGo, if_pos hop]
      exact ih _ _ _ hr
    · rw [ebGo, if_neg hop, if_neg hc]
      exact ih _ _ _ hr

/-- Claim C4 counterexample: for `"(a)"` (prefix `""`, inner `"a"`,
suffix `""`) the fsm.py variant `_extract_balanced_parens` returns
position 2 — the index *of* the matching close, not the position 3 just
past it, which the ere.py variant returns. -/
theorem claim_C4_counterexample :
    extract_balanced_parens ("(a)".toList) 0 = (some ['a'], some 2) ∧
    (2 : Nat) ≠ 0 + "a".toList.length + 2 ∧
    extract_balanced ("(a)".toList) 0 = (some ['a'], some 3) := by
  refine ⟨by decide, by decide, by decide⟩

/-- Claim C4 (amended): on `prefix ++ "(" ++ inner ++ ")" ++ suffix` with
`inner` containing only balanced parentheses, both scanners applied at
the opening parenthesis return exactly `inner`; `extract_balanced`
(ere.py) pairs it with the position just past the matching close, while
`_extract_balanced_parens` (fsm.py) pairs it with the position of the
close itself.  When no closing parenthesis follows the position, both
return the `(None, None)` sentinel instead of raising. -/
theorem claim_C4_amended (pre inner suf : List Char)
    (h : BalancedParens inner) :
    extract_balanced (pre ++ '(' :: (inner ++ ')' :: suf)) pre.length =
      (some inner, some (pre.length + inner.length + 2)) ∧
    extract_balanced_parens (pre ++ '(' :: (inner ++ ')' :: suf)) pre.length =
      (some inner, some (pre.length + inner.length + 1)) ∧
    (∀ (s : List Char) (pos : Nat), ')' ∉ s.drop pos →
      extract_balanced s pos = (none, none) ∧
      extract_balanced_parens s pos = (none, none)) := by
  have hdrop : (pre ++ '(' :: (inner ++ ')' :: suf)).drop pre.length =
      '(' :: (inner ++ ')' :: suf) :=
    List.drop_left pre _
  have h1 : ∀ p ∈ inner.inits, 0 < 1 + parenDepth p := by
    intro p hp
    have := h.1 p hp
    linarith
  have h2 : 1 + parenDepth inner = 1 := by
    rw [h.2]
    norm_num
  refine ⟨?_, ?_, ?_⟩
  · unfold extract_balanced
    rw [hdrop]
    show ebGo true (inner ++ ')' :: suf) (pre.length + 1) 1 [] =
      (some inner, some (pre.length + inner.length + 2))
    rw [ebGo_round true inner suf (pre.length + 1) 1 [] h1 h2]
    simp
    omega
  · unfold extract_balanced_parens
    rw [hdrop]
    show ebGo false (inner ++ ')' :: suf) (pre.length + 1) (parenDelta '(') [] =
      (some inner, some (pre.length + inner.length + 1))
    have hpd : parenDelta '(' = 1 := by decide
    rw [hpd, ebGo_round false inner suf (pre.length + 1) 1 [] h1 h2]
    simp
    omega
  · intro s pos hnc
    cases hd : s.drop pos with
    | nil =>
      unfold extract_balanced extract_balanced_parens
      rw [hd]
      exact ⟨rfl, rfl⟩
    | cons c rest =>
      rw [hd] at hnc
      have hc : c ≠ ')' := fun hc => hnc (hc ▸ List.mem_cons_self c rest)
      have hr : ')' ∉ rest := fun hr => hnc (List.mem_cons_of_mem c hr)
      constructor
      · unfold extract_balanced
        rw [hd]
        show (if c = '(' then ebGo true rest (pos + 1) 1 [] else (none, none)) =
          (none, none)
        by_cases hop : c = '('
        · rw [if_pos hop]
          exact ebGo_no_close true rest _ _ _ hr
        · rw [if_neg hop]
      · unfold extract_balanced_parens
        rw [hd]
        show ebGo false rest (pos + 1) (parenDelta c) [] = (none, none)
        exact ebGo_no_close false rest _ _ _ hr

/-- Witness for C4 (amended) at `"xy" ++ "(" ++ "a(b)c" ++ ")" ++ "z"`. -/
theorem claim_C4_amended_witness :
    BalancedParens ("a(b)c".toList) ∧
    (extract_balanced ("xy".toList ++ '(' :: ("a(b)c".toList ++ ')' :: "z".toList))
        ("xy".toList).length =
      (some ("a(b)c".toList),
        some (("xy".toList).length + ("a(b)c".toList).length + 2)) ∧
    extract_balanced_parens
        ("xy".toList ++ '(' :: ("a(b)c".toList ++ ')' :: "z".toList))
        ("xy".toList).length =
      (some ("a(b)c".toList),
        some (("xy".toList).length + ("a(b)c".toList).length + 1)) ∧
    (∀ (s : List Char) (pos : Nat), ')' ∉ s.drop pos →
      extract_balanced s pos = (none, none) ∧
      extract_balanced_parens s pos = (none, none))) :=
  ⟨by decide, claim_C4_amended ("xy".toList) ("a(b)c".toList) ("z".toList)
    (by decide)⟩

/-! ### Violation-block extraction

`extract_violation_block` exists in two variants cited by the spec:
the fsm.py one (src/core/convert/fsm.py, lines 331-345) returns
`{"tag": tag.lower(), "raw_block": lines}` (and `{"tag": None,
"raw_block": []}` when no block matches), while the ltl.py one
(src/core/convert/ltl.py, lines 222-241) returns only
`{"raw_block": lines}` — it never includes a `tag` key at all.  Both use
`re.search(r"@(fail|violation|match)\s*\{(.*?)\}", text, DOTALL |
IGNORECASE)`.  The dict is modelled with `tag : Option (Option ..)`:
`none` = key absent, `some none` = key present with value `None`. -/

/-- The tag alternation `(fail|violation|match)` (initials distinct, so
the regex alternation is deterministic). -/
def violTags : List (List Char) := ["fail".toList, "violation".toList, "match".toList]

/-- Try to match `@(fail|violation|match)\s*\{(.*?)\}` at the head of
`cs`; returns the tag as matched (original case) and the interior up to
the first `}` (lazy `.*?` under DOTALL). -/
def matchViolAt : List Char → Option (List Char × List Char)
  | '@' :: r =>
    match violTags.find? (fun kw => ciStarts kw r) with
    | none => none
    | some kw =>
      let tag := r.take kw.length
      let r2 := (r.drop kw.length).dropWhile pySpace
      match r2 with
      | '\x7b' :: r3 =>
        if r3.any (fun c => c = '\x7d') then
          some (tag, r3.takeWhile (fun c => c ≠ '\x7d'))
        else none
      | _ => none
  | _ => none

/-- `re.search` of the violation-block pattern: first position where the
whole pattern matches. -/
def findViolBlock : List Char → Option (List Char × List Char)
  | [] => none
  | c :: rest =>
    match matchViolAt (c :: rest) with
    | some x => some x
    | none => findViolBlock rest

/-- `[ln.strip() for ln in block.strip().splitlines() if ln.strip()]`. -/
def trimmedLines (interior : List Char) : List (List Char) :=
  ((pySplitlines (pyStrip interior)).map pyStrip).filter (fun l => l ≠ [])

/-- The dict returned by the violation-block extractors.  `tag = none`
models an absent `"tag"` key, `tag = some none` the key with value
`None`. -/
structure ViolationBlockDict where
  tag : Option (Option (List Char))
  raw_block : List (List Char)
deriving DecidableEq

/-- `extract_violation_block` of src/core/convert/fsm.py. -/
def fsm_extract_violation_block (text : List Char) : ViolationBlockDict :=
  match findViolBlock text with
  | none => ⟨some none, []⟩
  | some (tag, interior) => ⟨some (some (lowerL tag)), trimmedLines interior⟩

/-- `extract_violation_block` of src/core/convert/ltl.py: same search and
line trimming, but the returned dict has no `"tag"` key in either case. -/
def ltl_extract_violation_block (text : List Char) : ViolationBlockDict :=
  match findViolBlock text with
  | none => ⟨none, []⟩
  | some (_, interior) => ⟨none, trimmedLines interior⟩

theorem dropWhile_eq_self_of_head (p : Char → Bool) (l : List Char)
    (h : ∀ a ∈ l.head?, p a = false) : l.dropWhile p = l := by
  cases l with
  | nil => rfl
  | cons a rest =>
    have ha : p a = false := h a rfl
    simp [List.dropWhile_cons, ha]

theorem pyStrip_head? (cs : List Char) :
    ∀ a ∈ (pyStrip cs).head?, pySpace a = false := by
  intro a ha
  rw [Option.mem_def] at ha
  unfold pyStrip at ha
  rw [List.head?_reverse] at ha
  have hsuf : (cs.dropWhile pySpace).reverse.dropWhile pySpace <:+
      (cs.dropWhile pySpace).reverse := List.dropWhile_suffix pySpace
  rcases hsuf with ⟨t, ht⟩
  have hA : (cs.dropWhile pySpace).head? = some a := by
    rw [← List.getLast?_reverse, ← ht, List.getLast?_append, ha]
    rfl
  have hm := List.head?_dropWhile_not pySpace cs
  rw [hA] at hm
  exact hm

theorem pyStrip_idem (cs : List Char) : pyStrip (pyStrip cs) = pyStrip cs := by
  have h1 : (pyStrip cs).dropWhile pySpace = pyStrip cs :=
    dropWhile_eq_self_of_head _ _ (pyStrip_head? cs)
  show (((pyStrip cs).dropWhile pySpace).reverse.dropWhile pySpace).reverse =
    pyStrip cs
  rw [h1]
  unfold pyStrip
  rw [List.reverse_reverse]
  have h2 : (((cs.dropWhile pySpace).reverse.dropWhile pySpace).dropWhile
      pySpace) = (cs.dropWhile pySpace).reverse.dropWhile pySpace := by
    apply dropWhile_eq_self_of_head
    intro a ha
    rw [Option.mem_def] at ha
    have hm := List.head?_dropWhile_not pySpace ((cs.dropWhile pySpace).reverse)
    rw [ha] at hm
    exact hm
  rw [h2]

theorem trimmedLines_ok (interior : List Char) :
    ∀ l ∈ trimmedLines interior, l ≠ [] ∧ pyStrip l = l := by
  intro l hl
  unfold trimmedLines at hl
  rcases List.mem_filter.mp hl with ⟨hmap, hne⟩
  rcases List.mem_map.mp hmap with ⟨x, _, hx⟩
  refine ⟨by simpa using hne, ?_⟩
  rw [← hx, pyStrip_idem]

/-- A text containing a `@fail { ... }` block. -/
def violDemo : List Char := "x\n@fail \x7b\n  \"boom\"\n\x7d\n".toList

/-- Claim C8 counterexample: on a text that does contain a fail block the
ltl.py variant returns the trimmed interior lines but *no* tag key at
all — so the extractor cited by the claim does not "return its
lower-cased tag" (the fsm.py variant does). -/
theorem claim_C8_counterexample :
    (ltl_extract_violation_block violDemo).raw_block = ["\"boom\"".toList] ∧
    (ltl_extract_violation_block violDemo).tag = none ∧
    (fsm_extract_violation_block violDemo).tag = some (some ("fail".toList)) := by
  refine ⟨by decide, by decide, by decide⟩

/-- Claim C8 (amended): both extractors find the first
`@(fail|violation|match){...}` block case-insensitively across lines and
return its trimmed non-blank interior lines, and both return an empty
line list when no block is present, never raising.  The fsm.py variant
also returns the lower-cased tag (`None` when absent); the ltl.py
variant returns a dict with no tag key in either case. -/
theorem claim_C8_amended (text : List Char) :
    (findViolBlock text = none →
      fsm_extract_violation_block text = ⟨some none, []⟩ ∧
      ltl_extract_violation_block text = ⟨none, []⟩) ∧
    (∀ tg interior, findViolBlock text = some (tg, interior) →
      fsm_extract_violation_block text =
        ⟨some (some (lowerL tg)), trimmedLines interior⟩ ∧
      ltl_extract_violation_block text = ⟨none, trimmedLines interior⟩ ∧
      ∀ l ∈ trimmedLines interior, l ≠ [] ∧ pyStrip l = l) := by
  constructor
  · intro h
    unfold fsm_extract_violation_block ltl_extract_violation_block
    rw [h]
    exact ⟨rfl, rfl⟩
  · intro tg interior h
    unfold fsm_extract_violation_block ltl_extract_violation_block
    rw [h]
    exact ⟨rfl, rfl, trimmedLines_ok interior⟩

/-- Witness for C8 (amended) at the demo text (block present) and at
`"no block"` (block absent). -/
theorem claim_C8_amended_witness :
    (findViolBlock violDemo =
      some ("fail".toList, "\n  \"boom\"\n".toList)) ∧
    (fsm_extract_violation_block violDemo =
      ⟨some (some (lowerL ("fail".toList))),
        trimmedLines ("\n  \"boom\"\n".toList)⟩ ∧
      ltl_extract_violation_block violDemo =
        ⟨none, trimmedLines ("\n  \"boom\"\n".toList)⟩ ∧
      ∀ l ∈ trimmedLines ("\n  \"boom\"\n".toList), l ≠ [] ∧ pyStrip l = l) ∧
    (findViolBlock ("no block".toList) = none) ∧
    (fsm_extract_violation_block ("no block".toList) = ⟨some none, []⟩ ∧
      ltl_extract_violation_block ("no block".toList) = ⟨none, []⟩) :=
  ⟨by decide,
    (claim_C8_amended violDemo).2 ("fail".toList) ("\n  \"boom\"\n".toList)
      (by decide),
    by decide,
    (claim_C8_amended ("no block".toList)).1 (by decide)⟩

/-! ### FSM state-block parsing

Two cited variants: `_parse_fsm_block`
(src/core/comparator/mop_to_ir.py, lines 114-183) and
`_parse_fsm_state_blocks` (src/core/convert/fsm.py, lines 286-324).
Both read state blocks `NAME [` ... `event -> TARGET` ... `]` line by
line.  The comparator keeps states in declaration order, sets the start
state to the literal `"start"` whenever a declared state's name
lowercases to `start`, and otherwise falls back to the first state; the
fsm.py variant collects states into a set (sorted on return) and takes
the *first declared* state as initial unconditionally. -/

/-- Python `str.lower` on a `String`. -/
def lowerStr (s : String) : String := String.mk (lowerL s.data)

/-- A parsed transition (Python dict `{"from": .., "event": .., "to": ..}`;
`from` and `to` are Lean keywords, hence `from_`/`to_`). -/
structure Trans3 where
  from_ : String
  event : String
  to_ : String
deriving DecidableEq

/-- Match `^\s*([A-Za-z_]\w*)\s*\[\s*$` (a state-block opening line),
returning the state name. -/
def matchStateOpen (l : List Char) : Option (List Char) :=
  match l.dropWhile pySpace with
  | c :: rest =>
    if isIdentStartC c then
      let run := rest.takeWhile isWordC
      match (rest.drop run.length).dropWhile pySpace with
      | '[' :: tail =>
        if tail.dropWhile pySpace = [] then some (c :: run) else none
      | _ => none
    else none
  | [] => none

/-- Match `^\s*([A-Za-z_]\w*)\s*->\s*([A-Za-z_]\w*)\s*$` (a transition
line), returning `(event, target)`. -/
def matchTransLine (l : List Char) : Option (List Char × List Char) :=
  match l.dropWhile pySpace with
  | c :: rest =>
    if isIdentStartC c then
      let run := rest.takeWhile isWordC
      match (rest.drop run.length).dropWhile pySpace with
      | '-' :: '>' :: t2 =>
        match t2.dropWhile pySpace with
        | d :: dr =>
          if isIdentStartC d then
            let run2 := dr.takeWhile isWordC
            if (dr.drop run2.length).dropWhile pySpace = [] then
              some (c :: run, d :: run2)
            else none
          else none
        | [] => none
      | _ => none
    else none
  | [] => none

/-- Loop state of `_parse_fsm_block` (comparator). -/
structure PfbState where
  states : List String
  start_state : Option String
  current : Option String
  transitions : List Trans3

/-- One iteration of the comparator's line loop (`ln` is the stripped
non-blank line). -/
def pfbStep (st : PfbState) (ln : List Char) : PfbState :=
  match matchStateOpen ln with
  | some nm =>
    let nmS := String.mk nm
    { states := if nmS ∈ st.states then st.states else st.states ++ [nmS],
      start_state :=
        if lowerStr nmS = "start" then some "start" else st.start_state,
      current := some nmS,
      transitions := st.transitions }
  | none =>
    if ln = [']'] then
      { st with current := none }
    else
      match matchTransLine ln, st.current with
      | some (ev, toN), some cur =>
        let toS := String.mk toN
        { st with
            transitions :=
              st.transitions ++ [⟨cur, String.mk ev, toS⟩],
            states :=
              if toS ∈ st.states then st.states else st.states ++ [toS] }
      | _, _ => st

/-- The scan in `_parse_fsm_block` for `\bfsm\s*:\s*(.*)` (DOTALL): at the
first position with a word boundary where `fsm`, optional whitespace and
a colon match, the group is the whole remaining text after the greedy
`\s*`; `prevWord` tracks whether the previous character was a word
character. -/
def findFsmTail (prevWord : Bool) : List Char → Option (List Char)
  | [] => none
  | c :: rest =>
    match
      (if !prevWord && ciStarts ("fsm".toList) (c :: rest) then
        match ((c :: rest).drop 3).dropWhile pySpace with
        | ':' :: t => some (t.dropWhile pySpace)
        | _ => none
      else none) with
    | some r => some r
    | none => findFsmTail (isWordC c) rest

/-- Head test for the separator `\n\s*@\w+\s*\{` used by
`re.split(r"\n\s*@\w+\s*\{", after, maxsplit=1)`. -/
def isCutPoint (cs : List Char) : Bool :=
  match cs with
  | '\n' :: r =>
    match r.dropWhile pySpace with
    | '@' :: r3 =>
      let run := r3.takeWhile isWordC
      !run.isEmpty &&
        (match (r3.drop run.length).dropWhile pySpace with
         | '\x7b' :: _ => true
         | _ => false)
    | _ => false
  | _ => false

/-- Text before the first (leftmost) separator match; the whole text when
no separator occurs. -/
def cutAt : List Char → List Char
  | [] => []
  | c :: rest => if isCutPoint (c :: rest) then [] else c :: cutAt rest

/-- The stripped non-blank lines of the fsm section, or `none` when no
`fsm :` header matches. -/
def fsm_lines_of (text : List Char) : Option (List (List Char)) :=
  match findFsmTail false text with
  | none => none
  | some after =>
    some (((pySplitlines (cutAt after)).map pyStrip).filter (fun l => l ≠ []))

/-- `_parse_fsm_block` of src/core/comparator/mop_to_ir.py. -/
def parse_fsm_block (text : List Char) :
    List String × Option String × List Trans3 :=
  match fsm_lines_of text with
  | none => ([], none, [])
  | some lines =>
    let st := lines.foldl pfbStep ⟨[], none, none, []⟩
    (st.states,
      (match st.start_state with
       | some s => some s
       | none => st.states.head?),
      st.transitions)

/-- Loop state of `_parse_fsm_state_blocks` (fsm.py). -/
structure PsbState where
  states : Finset String
  transitions : List Trans3
  initial : Option String
  current : Option String
  inside : Bool

/-- One iteration of the fsm.py line loop (`ln` is a raw line; the loop
right-strips it first). -/
def psbStep (st : PsbState) (ln : List Char) : PsbState :=
  let line := pyRstrip ln
  match matchStateOpen line with
  | some nm =>
    let nmS := String.mk nm
    { states := insert nmS st.states,
      transitions := st.transitions,
      initial := match st.initial with | none => some nmS | some x => some x,
      current := some nmS,
      inside := true }
  | none =>
    if st.inside && pyStrip line = [']'] then
      { st with inside := false, current := none }
    else if st.inside then
      match st.current with
      | some cur =>
        match matchTransLine line with
        | some (ev, toN) =>
          { st with
              states := insert (String.mk toN) st.states,
              transitions :=
                st.transitions ++ [⟨cur, String.mk ev, String.mk toN⟩] }
        | none => st
      | none => st
    else st

/-- `_parse_fsm_state_blocks` of src/core/convert/fsm.py: returns
`(sorted(states_set), initial_state, transitions)`. -/
def parse_fsm_state_blocks (lines : List (List Char)) :
    List String × Option String × List Trans3 :=
  let st := lines.foldl psbStep ⟨∅, [], none, none, false⟩
  (st.states.sort (· ≤ ·), st.initial, st.transitions)

/-- A line declaring a state whose name lowercases to `start`. -/
def isStartDeclLine (l : List Char) : Bool :=
  match matchStateOpen l with
  | some nm => lowerStr (String.mk nm) == "start"
  | none => false

/-- The declared state names (block headers) of the comparator's line
list, in order. -/
def declaredStates (lines : List (List Char)) : List String :=
  lines.filterMap (fun l => (matchStateOpen l).map String.mk)

/-- The declared state names of the fsm.py loop (which right-strips each
line first), in order. -/
def declaredStatesPy (lines : List (List Char)) : List String :=
  lines.filterMap (fun l => (matchStateOpen (pyRstrip l)).map String.mk)

theorem pfbStep_cases (st : PfbState) (l : List Char) :
    (∃ nm, matchStateOpen l = some nm ∧
      pfbStep st l =
        { states :=
            if String.mk nm ∈ st.states then st.states
            else st.states ++ [String.mk nm],
          start_state :=
            if lowerStr (String.mk nm) = "start" then some "start"
            else st.start_state,
          current := some (String.mk nm),
          transitions := st.transitions }) ∨
    (matchStateOpen l = none ∧ l = [']'] ∧
      pfbStep st l = { st with current := none }) ∨
    (matchStateOpen l = none ∧ l ≠ [']'] ∧
      ∃ ev toN cur, matchTransLine l = some (ev, toN) ∧
        st.current = some cur ∧
        pfbStep st l =
          { st with
              transitions :=
                st.transitions ++ [⟨cur, String.mk ev, String.mk toN⟩],
              states :=
                if String.mk toN ∈ st.states then st.states
                else st.states ++ [String.mk toN] }) ∨
    (matchStateOpen l = none ∧ l ≠ [']'] ∧
      (matchTransLine l = none ∨ st.current = none) ∧ pfbStep st l = st) := by
  unfold pfbStep
  cases hm : matchStateOpen l with
  | some nm => exact Or.inl ⟨nm, rfl, rfl⟩
  | none =>
    by_cases hbr : l = [']']
    · simp only [if_pos hbr]
      exact Or.inr (Or.inl ⟨by trivial, hbr, by trivial⟩)
    · simp only [if_neg hbr]
      cases htr : matchTransLine l with
      | some p =>
        obtain ⟨ev, toN⟩ := p
        cases hc : st.current with
        | some cur =>
          exact Or.inr (Or.inr (Or.inl
            ⟨by trivial, hbr, ev, toN, cur, by trivial, by trivial, by trivial⟩))
        | none =>
          exact Or.inr (Or.inr (Or.inr
            ⟨by trivial, hbr, Or.inr (by trivial), by trivial⟩))
      | none =>
        refine Or.inr (Or.inr (Or.inr
          ⟨by trivial, hbr, Or.inl (by trivial), ?_⟩))
        cases st.current <;> rfl

theorem pfb_start (lines : List (List Char)) :
    ∀ st : PfbState, (lines.foldl pfbStep st).start_state =
      if lines.any isStartDeclLine then some "start" else st.start_state := by
  induction lines with
  | nil => intro st; simp
  | cons l ls ih =>
    intro st
    rw [List.foldl_cons, ih]
    have hstep : (pfbStep st l).start_state =
        if isStartDeclLine l then some "start" else st.start_state := by
      rcases pfbStep_cases st l with ⟨nm, hm, he⟩ | ⟨hm, _, he⟩ |
        ⟨hm, _, ev, toN, cur, _, _, he⟩ | ⟨hm, _, _, he⟩ <;>
        rw [he] <;> unfold isStartDeclLine <;> rw [hm]
      · by_cases hlow : lowerStr (String.mk nm) = "start"
        · simp [hlow]
        · simp [hlow]
      · rfl
      · rfl
      · rfl
    rw [List.any_cons]
    by_cases ha : isStartDeclLine l
    · simp [ha, hstep]
    · by_cases hb : ls.any isStartDeclLine
      · simp [ha, hb, hstep]
      · simp [ha, hb, hstep]

theorem pfbStep_states_mono (st : PfbState) (l : List Char) :
    ∀ x ∈ st.states, x ∈ (pfbStep st l).states := by
  intro x hx
  rcases pfbStep_cases st l with ⟨nm, _, he⟩ | ⟨_, _, he⟩ |
    ⟨_, _, ev, toN, cur, _, _, he⟩ | ⟨_, _, _, he⟩ <;> rw [he]
  · dsimp only []
    split
    · exact hx
    · exact List.mem_append_left _ hx
  · exact hx
  · dsimp only []
    split
    · exact hx
    · exact List.mem_append_left _ hx
  · exact hx

theorem pfb_states_mono (lines : List (List Char)) :
    ∀ st : PfbState, ∀ x ∈ st.states, x ∈ (lines.foldl pfbStep st).states := by
  induction lines with
  | nil => intro st x hx; simpa using hx
  | cons l ls ih =>
    intro st x hx
    rw [List.foldl_cons]
    exact ih _ _ (pfbStep_states_mono st l x hx)

theorem pfb_trans (lines : List (List Char)) :
    ∀ st : PfbState,
      (∀ t ∈ st.transitions, t.to_ ∈ st.states) →
      ∀ t ∈ (lines.foldl pfbStep st).transitions,
        t.to_ ∈ (lines.foldl pfbStep st).states := by
  induction lines with
  | nil => intro st h; simpa using h
  | cons l ls ih =>
    intro st h
    rw [List.foldl_cons]
    apply ih
    intro t ht
    rcases pfbStep_cases st l with ⟨nm, _, he⟩ | ⟨_, _, he⟩ |
      ⟨_, _, ev, toN, cur, _, _, he⟩ | ⟨_, _, _, he⟩ <;> rw [he] at ht ⊢
    · dsimp only [] at ht ⊢
      split
      · exact h t ht
      · exact List.mem_append_left _ (h t ht)
    · exact h t ht
    · dsimp only [] at ht ⊢
      rw [List.mem_append] at ht
      rcases ht with ht | ht
      · split
        · exact h t ht
        · exact List.mem_append_left _ (h t ht)
      · have heq : t = ⟨cur, String.mk ev, String.mk toN⟩ := by simpa using ht
        subst heq
        split
        · next hmem => exact hmem
        · exact List.mem_append_right _ (by simp)
    · exact h t ht

theorem pfb_head (lines : List (List Char)) :
    ∀ st : PfbState, (st.states = [] → st.current = none) →
      (lines.foldl pfbStep st).states.head? =
        st.states.head?.or (declaredStates lines).head? := by
  induction lines with
  | nil => intro st _; simp [declaredStates, Option.or_none]
  | cons l ls ih =>
    intro st hinv
    rw [List.foldl_cons]
    rcases pfbStep_cases st l with ⟨nm, hm, he⟩ | ⟨hm, _, he⟩ |
      ⟨hm, _, ev, toN, cur, htr, hc, he⟩ | ⟨hm, _, _, he⟩
    · have hdecl : declaredStates (l :: ls) =
          String.mk nm :: declaredStates ls := by
        unfold declaredStates
        rw [List.filterMap_cons, hm]
        rfl
      have hinv' : (pfbStep st l).states = [] → (pfbStep st l).current = none := by
        intro hempty
        exfalso
        rw [he] at hempty
        dsimp only [] at hempty
        split at hempty
        · next hmem =>
          rw [hempty] at hmem
          simp at hmem
        · simp at hempty
      rw [he, ih _ (he ▸ hinv'), hdecl]
      dsimp only []
      cases hst : st.states with
      | nil =>
        rw [if_neg (by simp [hst])]
        simp
      | cons a rest =>
        by_cases hmem : String.mk nm ∈ st.states
        · rw [if_pos (hst ▸ hmem)]
          simp
        · rw [if_neg (hst ▸ hmem)]
          simp
    · have hdecl : declaredStates (l :: ls) = declaredStates ls := by
        unfold declaredStates
        rw [List.filterMap_cons, hm]
        rfl
      rw [he, ih _ (fun _ => rfl), hdecl]
    · have hdecl : declaredStates (l :: ls) = declaredStates ls := by
        unfold declaredStates
        rw [List.filterMap_cons, hm]
        rfl
      have hne : st.states ≠ [] := by
        intro hempty
        rw [hinv hempty] at hc
        exact Option.noConfusion hc
      have hinv' : (pfbStep st l).states = [] → (pfbStep st l).current = none := by
        intro hempty
        rw [he] at hempty
        dsimp only [] at hempty
        split at hempty
        · exact absurd hempty hne
        · exact absurd hempty (by simp)
      rw [ih _ hinv', he, hdecl]
      dsimp only []
      cases hst : st.states with
      | nil => exact absurd hst hne
      | cons a rest =>
        by_cases hmem : String.mk toN ∈ st.states
        · rw [if_pos (hst ▸ hmem)]
        · rw [if_neg (hst ▸ hmem)]
          simp
    · have hdecl : declaredStates (l :: ls) = declaredStates ls := by
        unfold declaredStates
        rw [List.filterMap_cons, hm]
        rfl
      rw [he, ih _ hinv, hdecl]

theorem psbStep_cases (st : PsbState) (ln : List Char) :
    (∃ nm, matchStateOpen (pyRstrip ln) = some nm ∧
      psbStep st ln =
        { states := insert (String.mk nm) st.states,
          transitions := st.transitions,
          initial :=
            match st.initial with
            | none => some (String.mk nm)
            | some x => some x,
          current := some (String.mk nm),
          inside := true }) ∨
    (matchStateOpen (pyRstrip ln) = none ∧
      ∃ ev toN cur, matchTransLine (pyRstrip ln) = some (ev, toN) ∧
        st.current = some cur ∧
        psbStep st ln =
          { st with
              states := insert (String.mk toN) st.states,
              transitions :=
                st.transitions ++ [⟨cur, String.mk ev, String.mk toN⟩] }) ∨
    (matchStateOpen (pyRstrip ln) = none ∧
      (psbStep st ln = { st with inside := false, current := none } ∨
        psbStep st ln = st)) := by
  cases hm : matchStateOpen (pyRstrip ln) with
  | some nm =>
    refine Or.inl ⟨nm, rfl, ?_⟩
    simp only [psbStep, hm]
  | none =>
    cases hin : st.inside with
    | false =>
      refine Or.inr (Or.inr ⟨rfl, Or.inr ?_⟩)
      simp [psbStep, hm, hin]
    | true =>
      by_cases hstrip : pyStrip (pyRstrip ln) = [']']
      · refine Or.inr (Or.inr ⟨rfl, Or.inl ?_⟩)
        simp [psbStep, hm, hin, hstrip]
      · cases hc : st.current with
        | none =>
          refine Or.inr (Or.inr ⟨rfl, Or.inr ?_⟩)
          simp [psbStep, hm, hin, hstrip, hc]
        | some cur =>
          cases htr : matchTransLine (pyRstrip ln) with
          | none =>
            refine Or.inr (Or.inr ⟨rfl, Or.inr ?_⟩)
            simp [psbStep, hm, hin, hstrip, hc, htr]
          | some p =>
            obtain ⟨ev, toN⟩ := p
            refine Or.inr (Or.inl ⟨rfl, ev, toN, cur, rfl, rfl, ?_⟩)
            simp [psbStep, hm, hin, hstrip, hc, htr]

theorem psb_initial (lines : List (List Char)) :
    ∀ st : PsbState, (lines.foldl psbStep st).initial =
      st.initial.or (declaredStatesPy lines).head? := by
  induction lines with
  | nil => intro st; simp [declaredStatesPy, Option.or_none]
  | cons l ls ih =>
    intro st
    rw [List.foldl_cons, ih]
    rcases psbStep_cases st l with ⟨nm, hm, he⟩ |
      ⟨hm, ev, toN, cur, _, _, he⟩ | ⟨hm, he | he⟩
    · have hdecl : declaredStatesPy (l :: ls) =
          String.mk nm :: declaredStatesPy ls := by
        unfold declaredStatesPy
        rw [List.filterMap_cons, hm]
        rfl
      rw [he, hdecl]
      cases st.initial with
      | none => simp
      | some x => simp
    · have hdecl : declaredStatesPy (l :: ls) = declaredStatesPy ls := by
        unfold declaredStatesPy
        rw [List.filterMap_cons, hm]
        rfl
      rw [he, hdecl]
    · have hdecl : declaredStatesPy (l :: ls) = declaredStatesPy ls := by
        unfold declaredStatesPy
        rw [List.filterMap_cons, hm]
        rfl
      rw [he, hdecl]
    · have hdecl : declaredStatesPy (l :: ls) = declaredStatesPy ls := by
        unfold declaredStatesPy
        rw [List.filterMap_cons, hm]
        rfl
      rw [he, hdecl]

theorem psb_trans (lines : List (List Char)) :
    ∀ st : PsbState,
      (∀ t ∈ st.transitions, t.to_ ∈ st.states) →
      ∀ t ∈ (lines.foldl psbStep st).transitions,
        t.to_ ∈ (lines.foldl psbStep st).states := by
  induction lines with
  | nil => intro st h; simpa using h
  | cons l ls ih =>
    intro st h
    rw [List.foldl_cons]
    apply ih
    intro t ht
    rcases psbStep_cases st l with ⟨nm, _, he⟩ |
      ⟨_, ev, toN, cur, _, _, he⟩ | ⟨_, he | he⟩ <;> rw [he] at ht ⊢
    · exact Finset.mem_insert_of_mem (h t ht)
    · dsimp only [] at ht ⊢
      rw [List.mem_append] at ht
      rcases ht with ht | ht
      · exact Finset.mem_insert_of_mem (h t ht)
      · have heq : t = ⟨cur, String.mk ev, String.mk toN⟩ := by simpa using ht
        subst heq
        exact Finset.mem_insert_self _ _
    · exact h t ht
    · exact h t ht

/-- Demo line list for the C6 counterexample: a state `a`, then a state
named `start` declared later. -/
def demoLinesC6 : List (List Char) :=
  ["a [".toList, "e -> b".toList, "]".toList, "start [".toList, "]".toList]

/-- Claim C6 counterexample: fsm.py's `_parse_fsm_state_blocks` chooses
the *first declared* state `a` as initial even though a state named
exactly `start` is declared (and ends up in the state set). -/
theorem claim_C6_counterexample :
    (parse_fsm_state_blocks demoLinesC6).2.1 = some "a" ∧
    (some "a" : Option String) ≠ some "start" ∧
    "start" ∈ (parse_fsm_state_blocks demoLinesC6).1 ∧
    (parse_fsm_state_blocks demoLinesC6).2.2 = [⟨"a", "e", "b"⟩] := by
  refine ⟨by decide, by decide, ?_, by decide⟩
  unfold parse_fsm_state_blocks
  dsimp only []
  rw [Finset.mem_sort]
  decide

/-- Claim C6 (amended): in both FSM body extractors every transition's
target state is a member of the resulting state set even when not
separately declared.  For the initial state the two variants differ:
fsm.py's `_parse_fsm_state_blocks` always takes the first declared state
(regardless of any `start` state), while the comparator's
`_parse_fsm_block` yields the literal string `"start"` whenever some
declared state's name lowercases to `start`, and only otherwise the
first declared state. -/
theorem claim_C6_amended :
    (∀ lines : List (List Char),
      (∀ t ∈ (parse_fsm_state_blocks lines).2.2,
        t.to_ ∈ (parse_fsm_state_blocks lines).1) ∧
      (parse_fsm_state_blocks lines).2.1 = (declaredStatesPy lines).head?) ∧
    (∀ text : List Char,
      (fsm_lines_of text = none → parse_fsm_block text = ([], none, [])) ∧
      (∀ lines, fsm_lines_of text = some lines →
        (∀ t ∈ (parse_fsm_block text).2.2,
          t.to_ ∈ (parse_fsm_block text).1) ∧
        (lines.any isStartDeclLine = true →
          (parse_fsm_block text).2.1 = some "start") ∧
        (lines.any isStartDeclLine = false →
          (parse_fsm_block text).2.1 = (declaredStates lines).head?))) := by
  constructor
  · intro lines
    constructor
    · intro t ht
      unfold parse_fsm_state_blocks at ht ⊢
      dsimp only [] at ht ⊢
      rw [Finset.mem_sort]
      exact psb_trans lines ⟨∅, [], none, none, false⟩ (by intro t ht; simp at ht)
        t ht
    · unfold parse_fsm_state_blocks
      dsimp only []
      rw [psb_initial lines ⟨∅, [], none, none, false⟩]
      rfl
  · intro text
    constructor
    · intro h
      unfold parse_fsm_block
      rw [h]
    · intro lines h
      unfold parse_fsm_block
      rw [h]
      dsimp only []
      refine ⟨?_, ?_, ?_⟩
      · intro t ht
        exact pfb_trans lines ⟨[], none, none, []⟩ (by intro t ht; simp at ht)
          t ht
      · intro hany
        rw [pfb_start lines ⟨[], none, none, []⟩, if_pos hany]
      · intro hany
        rw [pfb_start lines ⟨[], none, none, []⟩, if_neg (by simp [hany])]
        rw [pfb_head lines ⟨[], none, none, []⟩ (fun _ => rfl)]
        rfl

/-- Demo text for the C6 witness: a comparator-format fsm section whose
`start` state is declared second. -/
def demoFsmTextC6 : List Char :=
  "fsm :\n  a [\n    e -> start\n  ]\n  start [\n  ]\n".toList

/-- The stripped non-blank fsm-section lines of `demoFsmTextC6`. -/
def demoFsmLinesC6 : List (List Char) :=
  ["a [".toList, "e -> start".toList, "]".toList, "start [".toList,
    "]".toList]

/-- Witness for C6 (amended): the comparator picks `start` on the demo
text (whose `start` state is not the first declared one), and the absent
case returns the empty triple. -/
theorem claim_C6_amended_witness :
    (∀ t ∈ (parse_fsm_state_blocks demoLinesC6).2.2,
      t.to_ ∈ (parse_fsm_state_blocks demoLinesC6).1) ∧
    (parse_fsm_state_blocks demoLinesC6).2.1 =
      (declaredStatesPy demoLinesC6).head? ∧
    (fsm_lines_of ("no header".toList) = none) ∧
    parse_fsm_block ("no header".toList) = ([], none, []) ∧
    (fsm_lines_of demoFsmTextC6 = some demoFsmLinesC6) ∧
    (demoFsmLinesC6.any isStartDeclLine = true) ∧
    (parse_fsm_block demoFsmTextC6).2.1 = some "start" :=
  ⟨(claim_C6_amended.1 demoLinesC6).1,
    (claim_C6_amended.1 demoLinesC6).2,
    by decide,
    (claim_C6_amended.2 ("no header".toList)).1 (by decide),
    by decide,
    by decide,
    ((claim_C6_amended.2 demoFsmTextC6).2 demoFsmLinesC6 (by decide)).2.1
      (by decide)⟩

/-! ### `mop_text_to_ir` (src/core/comparator/mop_to_ir.py)

The comparator pipeline: `_strip_comments` first (block comments
`/* ... */` with lazy interior, then `// ...` to end of line), then
`_extract_violation_message`, `_detect_category`, and the per-category
extraction (`_extract_events`, `_extract_guard`, `_extract_ere_pattern`,
`_extract_ltl_formula`, `_parse_fsm_block`).  The ERE/LTL extractors can
raise an uncaught IndexError (`"".splitlines()[0]`) when the header is
followed only by whitespace with a trailing non-newline blank, so they
and `mop_text_to_ir` return `Option` with `none` for the raised case. -/

/-- `re.sub(r"/\*.*?\*/", "", text, flags=DOTALL)` as a two-state scan:
outside a comment, a `/*` that has a later `*/` starts a dropped region
(a `/*` with no closing `*/` is left in place, and then no later match is
possible); inside, everything up to and including the first `*/` is
dropped.  The lazy `.*?` means each block comment ends at the first
following `*/`, and `re.sub` keeps the text before the leftmost `/*`
verbatim. -/
def rbGo : Bool → List Char → List Char
  | false, [] => []
  | false, '/' :: '*' :: rest =>
    if containsSub ("*/".toList) rest then rbGo true rest
    else '/' :: '*' :: rest
  | false, c :: rest => c :: rbGo false rest
  | true, [] => []
  | true, '*' :: '/' :: rest => rbGo false rest
  | true, _ :: rest => rbGo true rest

/-- `re.sub(r"/\*.*?\*/", "", text, flags=DOTALL)`. -/
def removeBlock (cs : List Char) : List Char := rbGo false cs

/-- `re.sub(r"//.*", "", text)` as a two-state scan: a `//` outside a
comment drops everything up to (but not including) the next newline,
since `.` does not match the newline. -/
def rlcGo : Bool → List Char → List Char
  | true, [] => []
  | true, c :: rest =>
    if c = '\n' then c :: rlcGo false rest else rlcGo true rest
  | false, [] => []
  | false, '/' :: '/' :: rest => rlcGo true rest
  | false, c :: rest => c :: rlcGo false rest

/-- `re.sub(r"//.*", "", text)`. -/
def removeLineComments (cs : List Char) : List Char := rlcGo false cs

/-- `_strip_comments`: block comments first, then line comments. -/
def strip_comments (cs : List Char) : List Char :=
  removeLineComments (removeBlock cs)

/-- First match of `"([^"]+)"`: the first quote followed by a non-empty
run of non-quotes and a closing quote. -/
def firstQuoted : List Char → Option (List Char)
  | [] => none
  | '"' :: rest =>
    (match rest.drop ((rest.takeWhile (fun c => c ≠ '"')).length) with
     | '"' :: _ =>
       if rest.takeWhile (fun c => c ≠ '"') = [] then firstQuoted rest
       else some (rest.takeWhile (fun c => c ≠ '"'))
     | _ => firstQuoted rest)
  | _ :: rest => firstQuoted rest

/-- `_extract_violation_message`: first quoted string of the first
violation block (or of the whole text), stripped; else the default. -/
def extract_violation_message (text : List Char) : List Char :=
  let scope :=
    match findViolBlock text with
    | some x => x.2
    | none => text
  match firstQuoted scope with
  | some sLit => pyStrip sLit
  | none => "Violation detected.".toList

/-- The stripped non-blank lines scanned by `_extract_events`. -/
def evLines (text : List Char) : List (List Char) :=
  ((pySplitlines text).map pyStrip).filter (fun l => l ≠ [])

/-- The `\b`-free tail of the event regex: `(before|after)\b`,
case-insensitively, at `r2`; returns the lowercased timing. -/
def matchTiming (nm : String) (r2 : List Char) : Option (String × String) :=
  if ciStarts ("before".toList) r2 then
    match r2.drop 6 with
    | [] => some (nm, "before")
    | f :: _ => if isWordC f then none else some (nm, "before")
  else if ciStarts ("after".toList) r2 then
    match r2.drop 5 with
    | [] => some (nm, "after")
    | f :: _ => if isWordC f then none else some (nm, "after")
  else none

/-- `re.match` of `^(?:creation\s+)?event\s+([A-Za-z_]\w*)\s+`
`(before|after)\b` (IGNORECASE) on one stripped line, returning
`(name, timing.lower())`. -/
def matchEventDecl (l : List Char) : Option (String × String) :=
  let l1 :=
    if ciStarts ("creation".toList) l then
      match l.drop 8 with
      | c :: rest => if pySpace c then (c :: rest).dropWhile pySpace else l
      | [] => l
    else l
  if ciStarts ("event".toList) l1 then
    match l1.drop 5 with
    | c :: rest =>
      if pySpace c then
        match (c :: rest).dropWhile pySpace with
        | d :: dr =>
          if isIdentStartC d then
            match dr.drop ((dr.takeWhile isWordC).length) with
            | e :: er =>
              if pySpace e then
                matchTiming (String.mk (d :: dr.takeWhile isWordC))
                  ((e :: er).dropWhile pySpace)
              else none
            | [] => none
          else none
        | [] => none
      else none
    | [] => none
  else none

/-- Order-preserving deduplication by `(name, timing)` (Python `seen`
set). -/
def dedupFirst (seen : List (String × String)) :
    List (String × String) → List (String × String)
  | [] => []
  | e :: rest =>
    if e ∈ seen then dedupFirst seen rest
    else e :: dedupFirst (e :: seen) rest

/-- `_extract_events`: per-line regex matches, deduplicated preserving
order. -/
def extract_events (text : List Char) : List (String × String) :=
  dedupFirst [] ((evLines text).filterMap matchEventDecl)

/-- Scan for `\bcondition\s*\(\s*(.*?)\s*\)` (DOTALL, IGNORECASE); the
lazy group together with the greedy `\s*` runs means the match ends at
the first `)` after the `(`, and the group is the interior with outer
whitespace stripped (applied by the caller via `strip`). -/
def findCondArg (prevWord : Bool) : List Char → Option (List Char)
  | [] => none
  | c :: rest =>
    match
      (if !prevWord && ciStarts ("condition".toList) (c :: rest) then
        match ((c :: rest).drop 9).dropWhile pySpace with
        | '(' :: t =>
          if t.any (fun x => x = ')') then
            some (t.takeWhile (fun x => x ≠ ')'))
          else none
        | _ => none
      else none) with
    | some r => some r
    | none => findCondArg (isWordC c) rest

/-- `_extract_guard`: normalized `condition(...)` body, defaulting to
`"true"`. -/
def extract_guard (text : List Char) : List Char :=
  match findCondArg false text with
  | none => "true".toList
  | some sArg =>
    let g := normalizeWs (pyStrip sArg)
    if g = [] then "true".toList else g

/-- The `\s*(.+)` tail of the header regexes, with the greedy/lazy
backtracking of Python `re`: if a non-whitespace character follows the
whitespace run, the group is everything from it up to the next newline;
if the remainder is all whitespace, the group is the last non-newline
whitespace character (a single character), and there is no match when
the remainder consists only of newlines. -/
def matchTailGroup (tail : List Char) : Option (List Char) :=
  match tail.drop ((tail.takeWhile pySpace).length) with
  | c :: rest => some ((c :: rest).takeWhile (fun x => x ≠ '\n'))
  | [] =>
    match (tail.takeWhile pySpace).reverse.dropWhile (fun x => x = '\n') with
    | c :: _ => some [c]
    | [] => none

/-- Scan for `\bKW\s*:\s*(.+)` with `KW` an alternation from `kws`
(IGNORECASE, no MULTILINE): word boundary, keyword, whitespace, colon,
then `matchTailGroup`. -/
def findKwColonGroup (kws : List (List Char)) (prevWord : Bool) :
    List Char → Option (List Char)
  | [] => none
  | c :: rest =>
    match
      (if !prevWord then
        match kws.find? (fun kw => ciStarts kw (c :: rest)) with
        | some kw =>
          match ((c :: rest).drop kw.length).dropWhile pySpace with
          | ':' :: t => matchTailGroup t
          | _ => none
        | none => none
      else none) with
    | some g => some g
    | none => findKwColonGroup kws (isWordC c) rest

/-- `_extract_ere_pattern`.  The outer `none` is the uncaught IndexError
of `"".splitlines()[0]`, reachable when the matched group strips to the
empty string. -/
def extract_ere_pattern (text : List Char) : Option (Option (List Char)) :=
  match findKwColonGroup ["ere".toList] false text with
  | none => some none
  | some g =>
    match pySplitlines (pyStrip g) with
    | [] => none
    | l0 :: _ =>
      some (if pyStrip l0 = [] then none else some (pyStrip l0))

/-- `_extract_ltl_formula`, same shape with the `(ltl|ptltl)`
alternation. -/
def extract_ltl_formula (text : List Char) : Option (Option (List Char)) :=
  match findKwColonGroup ["ltl".toList, "ptltl".toList] false text with
  | none => some none
  | some g =>
    match pySplitlines (pyStrip g) with
    | [] => none
    | l0 :: _ =>
      some (if pyStrip l0 = [] then none else some (pyStrip l0))

/-- The record returned by `mop_text_to_ir`.  Keys absent from a given
category's dict are `none` fields (the FSM branch has no `events`,
`guard`, `pattern` or `formula` key, the EVENT branch no `pattern`,
`states`, ... and so on). -/
structure MopIR where
  id : Option String
  category : String
  events : Option (List (String × String))
  guard : Option (List Char)
  pattern : Option (List Char)
  formula : Option (List Char)
  states : Option (List String)
  start_state : Option String
  transitions : Option (List Trans3)
  violation_message : List Char
deriving DecidableEq

/-- `mop_text_to_ir(mop_text, spec_id)`; `none` models the uncaught
IndexError of the ERE/LTL extractors. -/
def mop_text_to_ir (mop_text : List Char) (spec_id : Option String) :
    Option MopIR :=
  let text := strip_comments mop_text
  let violation_message := extract_violation_message text
  let spec_type := detect_category text
  if spec_type = "EVENT" then
    some { id := spec_id, category := "EVENT",
           events := some
             (if extract_events text = [] then [("UNKNOWN_EVENT", "before")]
              else extract_events text),
           guard := some (extract_guard text),
           pattern := none, formula := none,
           states := none, start_state := none, transitions := none,
           violation_message := violation_message }
  else if spec_type = "ERE" then
    match extract_ere_pattern text with
    | none => none
    | some pat =>
      some { id := spec_id, category := "ERE",
             events := some
               (if extract_events text = [] then [("UNKNOWN_EVENT", "before")]
                else extract_events text),
             guard := none, pattern := some (pat.getD []), formula := none,
             states := none, start_state := none, transitions := none,
             violation_message := violation_message }
  else if spec_type = "LTL" then
    match extract_ltl_formula text with
    | none => none
    | some formula =>
      some { id := spec_id, category := "LTL",
             events := some
               (if extract_events text = [] then [("UNKNOWN_EVENT", "before")]
                else extract_events text),
             guard := none, pattern := none,
             formula := some (formula.getD []),
             states := none, start_state := none, transitions := none,
             violation_message := violation_message }
  else
    some { id := spec_id, category := "FSM",
           events := none, guard := none, pattern := none, formula := none,
           states := some
             (if (parse_fsm_block text).1 = [] then ["start", "UNKNOWN_STATE"]
              else (parse_fsm_block text).1),
           start_state := some ((parse_fsm_block text).2.1.getD "start"),
           transitions := some (parse_fsm_block text).2.2,
           violation_message := violation_message }

/-- Claim C10: `mop_text_to_ir` is a function of the comment-stripped
text alone — two inputs on which `_strip_comments` agrees (in particular,
inputs differing only in `/* ... */` or `// ...` comment content) produce
equal IR records for every `spec_id`, comments never influencing the
category, events, guard, pattern, formula, FSM graph or violation
message. -/
theorem claim_C10 (t1 t2 : List Char) (idOpt : Option String)
    (h : strip_comments t1 = strip_comments t2) :
    mop_text_to_ir t1 idOpt = mop_text_to_ir t2 idOpt := by
  unfold mop_text_to_ir
  rw [h]

/-- Witness for C10: two texts differing only in block- and line-comment
content. -/
theorem claim_C10_witness :
    strip_comments ("ltl : p\n/* alpha */\n// one\n".toList) =
      strip_comments ("ltl : p\n/* beta-beta */\n// two two\n".toList) ∧
    mop_text_to_ir ("ltl : p\n/* alpha */\n// one\n".toList) none =
      mop_text_to_ir ("ltl : p\n/* beta-beta */\n// two two\n".toList) none :=
  ⟨by decide,
    claim_C10 ("ltl : p\n/* alpha */\n// one\n".toList)
      ("ltl : p\n/* beta-beta */\n// two two\n".toList) none (by decide)⟩

/-- A specification text with an `fsm :` header and no event
declaration. -/
def fsmDemoC5 : List Char := "fsm :\n".toList

/-- Claim C5 counterexample: this text declares no event, yet the
assembled IR (category FSM) has *no* event list at all — the FSM branch
of `mop_text_to_ir` emits no `events` key, so the synthetic
`UNKNOWN_EVENT` placeholder is absent rather than present. -/
theorem claim_C5_counterexample :
    (mop_text_to_ir fsmDemoC5 none).map (fun ir => ir.events) = some none ∧
    extract_events (strip_comments fsmDemoC5) = [] ∧
    (mop_text_to_ir fsmDemoC5 none).map (fun ir => ir.category) =
      some "FSM" := by
  refine ⟨by decide, by decide, by decide⟩

/-- Claim C5 (amended): for EVENT, ERE and LTL IRs the event list exists,
is never empty, and is exactly the single synthetic placeholder
`{UNKNOWN_EVENT, before}` whenever no event declaration is found; but an
IR has an event list exactly when its category is not FSM — FSM IRs carry
no event list at all, so downstream consumers may not assume one exists
in every assembled IR. -/
theorem claim_C5_amended (t : List Char) (idOpt : Option String) (ir : MopIR)
    (h : mop_text_to_ir t idOpt = some ir) :
    (ir.category = "FSM" ↔ ir.events = none) ∧
    (ir.category ≠ "FSM" →
      ∃ evs, ir.events = some evs ∧ evs ≠ [] ∧
        (extract_events (strip_comments t) = [] →
          evs = [("UNKNOWN_EVENT", "before")])) := by
  simp only [mop_text_to_ir] at h
  split at h
  · rw [Option.some.injEq] at h
    subst h
    refine ⟨by simp, fun _ => ?_⟩
    by_cases he : extract_events (strip_comments t) = []
    · exact ⟨_, rfl, by simp [he], fun _ => by simp [he]⟩
    · exact ⟨_, rfl, by simp [he], fun hc => absurd hc he⟩
  · split at h
    · split at h
      · exact absurd h (by simp)
      · rw [Option.some.injEq] at h
        subst h
        refine ⟨by simp, fun _ => ?_⟩
        by_cases he : extract_events (strip_comments t) = []
        · exact ⟨_, rfl, by simp [he], fun _ => by simp [he]⟩
        · exact ⟨_, rfl, by simp [he], fun hc => absurd hc he⟩
    · split at h
      · split at h
        · exact absurd h (by simp)
        · rw [Option.some.injEq] at h
          subst h
          refine ⟨by simp, fun _ => ?_⟩
          by_cases he : extract_events (strip_comments t) = []
          · exact ⟨_, rfl, by simp [he], fun _ => by simp [he]⟩
          · exact ⟨_, rfl, by simp [he], fun hc => absurd hc he⟩
      · rw [Option.some.injEq] at h
        subst h
        exact ⟨by simp, fun hne => absurd rfl hne⟩

/-- The IR assembled from `fsmDemoC5`. -/
def demoFsmIR : MopIR :=
  { id := none, category := "FSM",
    events := none, guard := none, pattern := none, formula := none,
    states := some ["start", "UNKNOWN_STATE"], start_state := some "start",
    transitions := some [],
    violation_message := "Violation detected.".toList }

/-- Witness for C5 (amended) at the event-free fsm text. -/
theorem claim_C5_amended_witness :
    mop_text_to_ir fsmDemoC5 none = some demoFsmIR ∧
    ((demoFsmIR.category = "FSM" ↔ demoFsmIR.events = none) ∧
      (demoFsmIR.category ≠ "FSM" →
        ∃ evs, demoFsmIR.events = some evs ∧ evs ≠ [] ∧
          (extract_events (strip_comments fsmDemoC5) = [] →
            evs = [("UNKNOWN_EVENT", "before")]))) :=
  ⟨by decide, claim_C5_amended fsmDemoC5 none demoFsmIR (by decide)⟩

end Nl2Spec





